import Mathlib

/-!
Verification of the parse-tree inspection and incremental-edit simulation core
(cli/src/parse.rs): position/offset conversion, edit parsing and application,
the iterative cursor traversal, the render strategies, and the first-error scan.

Byte buffers are modelled as `List Nat` (each entry one byte value); Rust `&str`
contents are modelled as `List Char`; machine integers are modelled as `Nat`
(with the 64-bit bound made explicit where the code can reject an overflowing
literal) or `Int` where a Rust value is signed.  Fallible code (slicing panics,
`unwrap`, `expect`) is modelled with `Option`/`Except`.
-/

/-- Line/column position, as in `tree_sitter::Point`: `row` counts newline
bytes seen, `column` counts bytes since the last newline.  Ordering (derived in
the Rust crate) is lexicographic on `(row, column)`. -/
structure Point where
  row : Nat
  column : Nat
deriving DecidableEq, Repr

/-- Lexicographic strict order on `Point`, matching the derived `Ord` of
`tree_sitter::Point` used by `current_position > position` in the source. -/
def Point.Lt (p q : Point) : Prop :=
  p.row < q.row ∨ (p.row = q.row ∧ p.column < q.column)

instance (p q : Point) : Decidable (Point.Lt p q) := by
  unfold Point.Lt
  exact inferInstance

/-- One byte step of the row/column accumulation shared by both converters in
parse.rs: a newline byte (10) increments `row` and resets `column`; any other
byte increments `column`. -/
def advance (p : Point) (c : Nat) : Point :=
  if c = 10 then ⟨p.row + 1, 0⟩ else ⟨p.row, p.column + 1⟩

/-- Loop of `offset_for_position` (parse.rs:614): at index `i` the byte is
consumed, the running position updated, and `i` returned as soon as the running
position strictly exceeds the target. -/
def offset_for_position_aux (cur target : Point) (i : Nat) : List Nat → Nat
  | [] => i
  | c :: rest =>
    let cur2 := advance cur c
    if target.Lt cur2 then i else offset_for_position_aux cur2 target (i + 1) rest

/-- `offset_for_position(input, position)` (parse.rs:614-628): offset of the
first byte whose resulting position strictly exceeds `position`, or the buffer
length if the scan runs out. -/
def offset_for_position (input : List Nat) (position : Point) : Nat :=
  offset_for_position_aux ⟨0, 0⟩ position 0 input

/-- `position_for_offset(input, offset)` (parse.rs:630-641): accumulate over
bytes `[0, offset)`.  The Rust slice `&input[0..offset]` panics when
`offset > input.len()`; that case is `none`. -/
def position_for_offset (input : List Nat) (offset : Nat) : Option Point :=
  if offset ≤ input.length then
    some ((input.take offset).foldl advance ⟨0, 0⟩)
  else
    none

theorem advance_lt (p : Point) (c : Nat) : p.Lt (advance p c) := by
  unfold advance Point.Lt
  split <;> simp

theorem pointLt_trans {p q r : Point} (h1 : p.Lt q) (h2 : q.Lt r) : p.Lt r := by
  unfold Point.Lt at *
  rcases h1 with h1 | ⟨h1, h1c⟩ <;> rcases h2 with h2 | ⟨h2, h2c⟩ <;> omega

theorem pointLt_asymm {p q : Point} (h : p.Lt q) : ¬ q.Lt p := by
  unfold Point.Lt at *
  rcases h with h | ⟨h, hc⟩ <;> omega

/-- The accumulated position over any byte list never drops below the starting
position. -/
theorem foldl_advance_ge :
    ∀ (l : List Nat) (p : Point), p = l.foldl advance p ∨ p.Lt (l.foldl advance p) := by
  intro l
  induction l with
  | nil => intro p; left; rfl
  | cons c rest ih =>
    intro p
    right
    rcases ih (advance p c) with h | h
    · rw [List.foldl_cons, ← h]
      exact advance_lt p c
    · exact pointLt_trans (advance_lt p c) h

theorem not_lt_foldl_advance (l : List Nat) (p : Point) : ¬ (l.foldl advance p).Lt p := by
  rcases foldl_advance_ge l p with h | h
  · rw [← h]
    unfold Point.Lt
    omega
  · exact pointLt_asymm h

/-- Scanning for the position accumulated after `o` more bytes stops exactly
after those `o` bytes: the byte that follows strictly increases the running
position, and no earlier byte reaches past the target. -/
theorem offset_for_position_aux_exact :
    ∀ (l : List Nat) (cur : Point) (i o : Nat), o ≤ l.length →
      offset_for_position_aux cur ((l.take o).foldl advance cur) i l = i + o := by
  intro l
  induction l with
  | nil =>
    intro cur i o ho
    simp at ho
    simp [ho, offset_for_position_aux]
  | cons c rest ih =>
    intro cur i o ho
    cases o with
    | zero =>
      simp only [List.take_zero, List.foldl_nil, offset_for_position_aux]
      rw [if_pos (advance_lt cur c)]
      omega
    | succ o' =>
      simp only [List.take_succ_cons, List.foldl_cons, offset_for_position_aux]
      rw [if_neg (not_lt_foldl_advance _ _)]
      have := ih (advance cur c) (i + 1) o' (by simpa using ho)
      omega

/-- C1: round-trip.  For every buffer and valid offset `o ≤ length`,
`position_for_offset` succeeds and feeding its result to `offset_for_position`
returns exactly `o`. -/
theorem round_trip_offset_position (input : List Nat) (o : Nat) (h : o ≤ input.length) :
    (position_for_offset input o).map (fun p => offset_for_position input p) = some o := by
  unfold position_for_offset
  rw [if_pos h]
  unfold offset_for_position
  rw [Option.map_some']
  rw [offset_for_position_aux_exact input ⟨0, 0⟩ 0 o h]
  rw [Nat.zero_add]

/-- C1 witness: the round trip at a concrete buffer containing a newline and a
concrete valid offset. -/
theorem round_trip_offset_position_witness :
    2 ≤ ([97, 10, 98] : List Nat).length ∧
      (position_for_offset [97, 10, 98] 2).map
        (fun p => offset_for_position [97, 10, 98] p) = some 2 :=
  ⟨by decide, round_trip_offset_position [97, 10, 98] 2 (by decide)⟩

/-- `Edit` (parse.rs:12-17): a parsed textual edit. -/
structure Edit where
  position : Nat
  deleted_length : Nat
  inserted_text : List Nat
deriving DecidableEq, Repr

/-- `tree_sitter::InputEdit`: the descriptor handed to `Tree::edit`. -/
structure InputEdit where
  start_byte : Nat
  old_end_byte : Nat
  new_end_byte : Nat
  start_position : Point
  old_end_position : Point
  new_end_position : Point
deriving DecidableEq, Repr

/-- `Vec::splice(start..stop, repl)` restricted to what perform_edit uses:
replace bytes `[start, stop)` by `repl`.  The Rust call panics when
`start > stop` or `stop > len`; those cases are `none`. -/
def spliceBytes (input : List Nat) (start stop : Nat) (repl : List Nat) : Option (List Nat) :=
  if start ≤ stop ∧ stop ≤ input.length then
    some (input.take start ++ repl ++ input.drop stop)
  else
    none

/-- `perform_edit(tree, input, edit)` (parse.rs:553-571).  The tree side of the
call (`tree.edit(&edit)`) only updates the external tree's bookkeeping and is
outside this core; the function returns the `InputEdit` descriptor plus the
mutated buffer.  A panic anywhere (out-of-bounds position scan or splice) is
`none`. -/
def perform_edit (input : List Nat) (edit : Edit) : Option (InputEdit × List Nat) := do
  let start_byte := edit.position
  let old_end_byte := edit.position + edit.deleted_length
  let new_end_byte := edit.position + edit.inserted_text.length
  let start_position ← position_for_offset input start_byte
  let old_end_position ← position_for_offset input old_end_byte
  let input2 ← spliceBytes input start_byte old_end_byte edit.inserted_text
  let new_end_position ← position_for_offset input2 new_end_byte
  some (⟨start_byte, old_end_byte, new_end_byte,
         start_position, old_end_position, new_end_position⟩, input2)

/-- Helper: the spliced buffer has length `start + repl + (len - stop)`. -/
theorem spliceBytes_length (input : List Nat) (start stop : Nat) (repl : List Nat)
    (h1 : start ≤ stop) (h2 : stop ≤ input.length) :
    spliceBytes input start stop repl =
      some (input.take start ++ repl ++ input.drop stop) ∧
      (input.take start ++ repl ++ input.drop stop).length =
        input.length + repl.length - (stop - start) := by
  constructor
  · unfold spliceBytes
    rw [if_pos ⟨h1, h2⟩]
  · simp [List.length_append, List.length_take, List.length_drop]
    omega

/-- Helper: full characterisation of a successful `perform_edit` under the
precondition `position + deleted_length ≤ length`. -/
theorem perform_edit_some_of_le (input : List Nat) (edit : Edit)
    (h : edit.position + edit.deleted_length ≤ input.length) :
    ∃ ie buf2, perform_edit input edit = some (ie, buf2) ∧
      ie.start_byte = edit.position ∧
      ie.old_end_byte = edit.position + edit.deleted_length ∧
      ie.new_end_byte = edit.position + edit.inserted_text.length ∧
      position_for_offset input ie.start_byte = some ie.start_position ∧
      position_for_offset input ie.old_end_byte = some ie.old_end_position ∧
      position_for_offset buf2 ie.new_end_byte = some ie.new_end_position ∧
      buf2 = input.take edit.position ++ edit.inserted_text ++
        input.drop (edit.position + edit.deleted_length) ∧
      buf2.length + edit.deleted_length = input.length + edit.inserted_text.length ∧
      buf2.length = input.length + edit.inserted_text.length - edit.deleted_length := by
  have hpos : edit.position ≤ input.length := by omega
  have hstart : position_for_offset input edit.position =
      some ((input.take edit.position).foldl advance ⟨0, 0⟩) := by
    unfold position_for_offset
    rw [if_pos hpos]
  have hold : position_for_offset input (edit.position + edit.deleted_length) =
      some ((input.take (edit.position + edit.deleted_length)).foldl advance ⟨0, 0⟩) := by
    unfold position_for_offset
    rw [if_pos h]
  have hsplice : spliceBytes input edit.position (edit.position + edit.deleted_length)
      edit.inserted_text =
      some (input.take edit.position ++ edit.inserted_text ++
        input.drop (edit.position + edit.deleted_length)) := by
    unfold spliceBytes
    rw [if_pos ⟨by omega, h⟩]
  set buf2 := input.take edit.position ++ edit.inserted_text ++
    input.drop (edit.position + edit.deleted_length) with hbuf2
  have hlen : buf2.length = edit.position + edit.inserted_text.length +
      (input.length - (edit.position + edit.deleted_length)) := by
    rw [hbuf2]
    simp [List.length_append, List.length_take, List.length_drop]
    omega
  have hnew : position_for_offset buf2 (edit.position + edit.inserted_text.length) =
      some ((buf2.take (edit.position + edit.inserted_text.length)).foldl advance ⟨0, 0⟩) := by
    unfold position_for_offset
    rw [if_pos (by omega)]
  refine ⟨⟨edit.position, edit.position + edit.deleted_length,
    edit.position + edit.inserted_text.length,
    (input.take edit.position).foldl advance ⟨0, 0⟩,
    (input.take (edit.position + edit.deleted_length)).foldl advance ⟨0, 0⟩,
    (buf2.take (edit.position + edit.inserted_text.length)).foldl advance ⟨0, 0⟩⟩,
    buf2, ?_, rfl, rfl, rfl, hstart, hold, hnew, rfl, by omega, by omega⟩
  simp only [perform_edit, hstart, hold, hsplice, hnew, Option.bind_eq_bind,
    Option.some_bind]

/-- C2: with `position + deleted_length ≤ length`, `perform_edit` succeeds; the
descriptor's three byte offsets are `position`, `position + deleted_length` and
`position + inserted_text.length`; `start_position` and `old_end_position` are
computed by `position_for_offset` against the buffer before mutation and
`new_end_position` against the buffer after mutation; the buffer is spliced
over `[start_byte, old_end_byte)` so its length changes by
`inserted_text.length - deleted_length`. -/
theorem perform_edit_spec (input : List Nat) (edit : Edit)
    (h : edit.position + edit.deleted_length ≤ input.length) :
    ∃ ie buf2, perform_edit input edit = some (ie, buf2) ∧
      ie.start_byte = edit.position ∧
      ie.old_end_byte = edit.position + edit.deleted_length ∧
      ie.new_end_byte = edit.position + edit.inserted_text.length ∧
      position_for_offset input ie.start_byte = some ie.start_position ∧
      position_for_offset input ie.old_end_byte = some ie.old_end_position ∧
      position_for_offset buf2 ie.new_end_byte = some ie.new_end_position ∧
      buf2 = input.take edit.position ++ edit.inserted_text ++
        input.drop (edit.position + edit.deleted_length) ∧
      buf2.length + edit.deleted_length = input.length + edit.inserted_text.length ∧
      buf2.length = input.length + edit.inserted_text.length - edit.deleted_length :=
  perform_edit_some_of_le input edit h

/-- C2 witness: concrete edit `{position 1, delete 1, insert [120, 121]}` on
the buffer `[97, 10, 98]`. -/
theorem perform_edit_spec_witness :
    (⟨1, 1, [120, 121]⟩ : Edit).position + (⟨1, 1, [120, 121]⟩ : Edit).deleted_length ≤
        ([97, 10, 98] : List Nat).length ∧
      (∃ ie buf2, perform_edit [97, 10, 98] ⟨1, 1, [120, 121]⟩ = some (ie, buf2) ∧
        ie.start_byte = (⟨1, 1, [120, 121]⟩ : Edit).position ∧
        ie.old_end_byte = 1 + 1 ∧
        ie.new_end_byte = 1 + 2 ∧
        position_for_offset [97, 10, 98] ie.start_byte = some ie.start_position ∧
        position_for_offset [97, 10, 98] ie.old_end_byte = some ie.old_end_position ∧
        position_for_offset buf2 ie.new_end_byte = some ie.new_end_position ∧
        buf2 = [97, 10, 98].take 1 ++ [120, 121] ++ [97, 10, 98].drop (1 + 1) ∧
        buf2.length + 1 = 3 + 2 ∧
        buf2.length = 3 + 2 - 1) :=
  ⟨by decide, by
    have h := perform_edit_spec [97, 10, 98] ⟨1, 1, [120, 121]⟩ (by decide)
    simpa using h⟩

/-- Helper: `perform_edit` panics (returns `none`) precisely when the
precondition `position + deleted_length ≤ buffer length` fails. -/
theorem perform_edit_none_iff (input : List Nat) (edit : Edit) :
    perform_edit input edit = none ↔
      input.length < edit.position + edit.deleted_length := by
  constructor
  · intro hnone
    by_contra hlt
    have h : edit.position + edit.deleted_length ≤ input.length := by omega
    obtain ⟨ie, buf2, heq, -⟩ := perform_edit_some_of_le input edit h
    rw [heq] at hnone
    exact Option.noConfusion hnone
  · intro hlt
    unfold perform_edit
    rcases le_or_lt edit.position input.length with hpos | hpos
    · have hstart : position_for_offset input edit.position =
          some ((input.take edit.position).foldl advance ⟨0, 0⟩) := by
        unfold position_for_offset
        rw [if_pos hpos]
      have hold : position_for_offset input (edit.position + edit.deleted_length) = none := by
        unfold position_for_offset
        rw [if_neg (by omega)]
      simp only [perform_edit, hstart, hold, Option.bind_eq_bind, Option.some_bind,
        Option.none_bind]
    · have hstart : position_for_offset input edit.position = none := by
        unfold position_for_offset
        rw [if_neg (by omega)]
      simp only [perform_edit, hstart, Option.bind_eq_bind, Option.none_bind]

/-- UTF-8 encoding of one character, as Rust `String::into_bytes` produces. -/
def utf8EncodeChar (c : Char) : List Nat :=
  let n := c.toNat
  if n < 0x80 then
    [n]
  else if n < 0x800 then
    [0xC0 + n / 0x40, 0x80 + n % 0x40]
  else if n < 0x10000 then
    [0xE0 + n / 0x1000, 0x80 + n / 0x40 % 0x40, 0x80 + n % 0x40]
  else
    [0xF0 + n / 0x40000, 0x80 + n / 0x1000 % 0x40, 0x80 + n / 0x40 % 0x40, 0x80 + n % 0x40]

/-- UTF-8 bytes of a character list (Rust `str::as_bytes` / `into_bytes`). -/
def utf8Bytes (s : List Char) : List Nat :=
  s.flatMap utf8EncodeChar

/-- Rust `str::split` with a one-character separator: splits into the (always
nonempty) list of separated fields, keeping empty fields. -/
def splitChar (sep : Char) : List Char → List (List Char)
  | [] => [[]]
  | c :: rest =>
    match splitChar sep rest with
    | g :: gs => if c == sep then [] :: g :: gs else (c :: g) :: gs
    | [] => [[c]]

/-- Rust `Vec::join(sep)` for string fields. -/
def intercalateChars (sep : List Char) : List (List Char) → List Char
  | [] => []
  | [g] => g
  | g :: gs => g ++ sep ++ intercalateChars sep gs

/-- Strip the single optional leading `+` sign accepted by
`usize::from_str_radix(_, 10)`. -/
def stripPlus : List Char → List Char
  | '+' :: rest => rest
  | l => l

/-- Numeric value of a decimal digit string. -/
def natOfDigits (l : List Char) : Nat :=
  l.foldl (fun a c => a * 10 + (c.toNat - 48)) 0

/-- `usize::from_str_radix(s, 10)`: optional leading `+`, then one or more
ASCII decimal digits, value below `2^64` (the `usize` range on the 64-bit
targets the tool ships for). -/
def from_str_radix_10 (s : List Char) : Option Nat :=
  let t := stripPlus s
  if t ≠ [] ∧ t.all Char.isDigit then
    let n := natOfDigits t
    if n < 18446744073709551616 then some n else none
  else
    none

/-- The error condition of `parse_edit_flag` (parse.rs:574-579): a malformed
edit spec, carrying the offending literal flag string. -/
inductive EditError where
  | malformedEditSpec (flag : List Char) : EditError
deriving DecidableEq

/-- The rendered `anyhow!` message of parse.rs:575-578, with the flag
interpolated into the format string. -/
def EditError.message : EditError → List Char
  | .malformedEditSpec flag =>
    ("Invalid edit string \x27").data ++ flag ++
      ("\x27. Edit strings must match the pattern " ++
        "\x27<START_BYTE_OR_POSITION> <REMOVED_LENGTH> <NEW_TEXT>\x27").data

/-- Position field parsing (parse.rs:590-602): the literal `$` maps to the
current buffer length; a field containing a comma is parsed as the first two
comma-separated fields `row,column` and converted through
`offset_for_position`; anything else must be a raw byte offset.  `none` is the
early `Err` return. -/
def parsePosition (source_code : List Nat) (position : List Char) : Option Nat :=
  if position = ['$'] then
    some source_code.length
  else if position.contains ',' then
    match splitChar ',' position with
    | row :: column :: _ =>
      match from_str_radix_10 row, from_str_radix_10 column with
      | some r, some c => some (offset_for_position source_code ⟨r, c⟩)
      | _, _ => none
    | _ => none
  else
    from_str_radix_10 position

/-- `parse_edit_flag(source_code, flag)` (parse.rs:573-612): split on single
spaces into position, deleted length, and the remaining fields re-joined with
single spaces as the inserted text. -/
def parse_edit_flag (source_code : List Nat) (flag : List Char) : Except EditError Edit :=
  match splitChar ' ' flag with
  | position :: deleted_length :: rest =>
    match parsePosition source_code position, from_str_radix_10 deleted_length with
    | some p, some d => Except.ok ⟨p, d, utf8Bytes (intercalateChars [' '] rest)⟩
    | _, _ => Except.error (.malformedEditSpec flag)
  | _ => Except.error (.malformedEditSpec flag)

/-- A field that is a non-negative integer literal in the accepted syntax
(optional `+`, then decimal digits). -/
def isIntLit (s : List Char) : Bool :=
  let t := stripPlus s
  !t.isEmpty && t.all Char.isDigit

/-- A field that parses as a `row,column` pair in the accepted syntax: it
contains a comma and its first two comma-separated fields are integer
literals. -/
def isRowColLit (s : List Char) : Bool :=
  s.contains ',' &&
    match splitChar ',' s with
    | row :: column :: _ => isIntLit row && isIntLit column
    | _ => false

/-- The malformedness condition of claim C5, read off the spec wording: fewer
than two space-separated fields, or a position field that is neither `$` nor an
integer literal nor a parseable `row,column` pair, or a deleted-length field
that is not an integer literal. -/
def malformedSpec (flag : List Char) : Bool :=
  match splitChar ' ' flag with
  | position :: deleted_length :: _ =>
    (!(position == ['$']) && !isIntLit position && !isRowColLit position) ||
      !isIntLit deleted_length
  | _ => true

theorem from_str_radix_10_eq_none_of_not_lit (s : List Char) (h : isIntLit s = false) :
    from_str_radix_10 s = none := by
  unfold isIntLit at h
  unfold from_str_radix_10
  rw [if_neg]
  intro ⟨h1, h2⟩
  simp only [Bool.and_eq_false_imp, Bool.not_eq_false', List.isEmpty_iff] at h
  rcases Bool.not_eq_true (stripPlus s).isEmpty |>.symm with _
  by_cases he : (stripPlus s).isEmpty
  · exact h1 (List.isEmpty_iff.mp he)
  · have := h (by simpa using he)
    simp only [Bool.not_eq_true'] at this
    rw [h2] at this
    exact Bool.noConfusion this

theorem isIntLit_of_from_str_radix_10 (s : List Char) (n : Nat)
    (h : from_str_radix_10 s = some n) : isIntLit s = true := by
  unfold from_str_radix_10 at h
  unfold isIntLit
  by_cases hc : stripPlus s ≠ [] ∧ (stripPlus s).all Char.isDigit
  · simp only [Bool.and_eq_true, Bool.not_eq_true', List.isEmpty_iff]
    exact ⟨by simpa using hc.1, hc.2⟩
  · rw [if_neg hc] at h
    exact Option.noConfusion h

theorem parsePosition_none_of_unparseable (buf : List Nat) (position : List Char)
    (hne : (position == ['$']) = false) (hint : isIntLit position = false)
    (hrc : isRowColLit position = false) :
    parsePosition buf position = none := by
  unfold parsePosition
  rw [if_neg (by simpa using hne)]
  by_cases hc : position.contains ','
  · rw [if_pos hc]
    unfold isRowColLit at hrc
    rw [hc, Bool.true_and] at hrc
    cases hsp : splitChar ',' position with
    | nil => rfl
    | cons row rest =>
      cases rest with
      | nil => rfl
      | cons column rest2 =>
        rw [hsp] at hrc
        simp only at hrc
        cases hr : from_str_radix_10 row with
        | none => simp [hr]
        | some r =>
          cases hcol : from_str_radix_10 column with
          | none => simp [hr, hcol]
          | some c =>
            rw [isIntLit_of_from_str_radix_10 row r hr,
              isIntLit_of_from_str_radix_10 column c hcol] at hrc
            exact Bool.noConfusion hrc
  · rw [if_neg hc]
    exact from_str_radix_10_eq_none_of_not_lit _ hint

/-- C5: a spec string with fewer than two space-separated fields, or whose
position field is neither `$` nor an integer literal nor a parseable
`row,column` pair, or whose deleted-length field is not an integer literal, is
rejected by `parse_edit_flag` with a `MalformedEditSpec` error carrying the
offending flag, whose rendered message contains the literal flag text.  The
function returns before any `Edit` is produced, so no buffer or tree mutation
can occur. -/
theorem malformed_edit_spec_rejected (buf : List Nat) (flag : List Char)
    (h : malformedSpec flag = true) :
    parse_edit_flag buf flag = Except.error (.malformedEditSpec flag) ∧
      ∃ pre post, (EditError.malformedEditSpec flag).message = pre ++ flag ++ post := by
  refine ⟨?_, ("Invalid edit string \x27").data, _, rfl⟩
  unfold malformedSpec at h
  unfold parse_edit_flag
  cases hsp : splitChar ' ' flag with
  | nil => rfl
  | cons position rest =>
    cases rest with
    | nil => rfl
    | cons deleted_length rest2 =>
      rw [hsp] at h
      simp only [Bool.or_eq_true, Bool.and_eq_true, Bool.not_eq_true'] at h
      rcases h with ⟨⟨hne, hint⟩, hrc⟩ | hdel
      · simp [parsePosition_none_of_unparseable buf position hne hint hrc]
      · simp only []
        rw [from_str_radix_10_eq_none_of_not_lit deleted_length hdel]
        cases parsePosition buf position <;> rfl

/-- C5 witness: the scenario from the spec, edit spec `abc`, is malformed
(missing two fields) and rejected with an error referencing the literal
`abc`. -/
theorem malformed_edit_spec_rejected_witness :
    malformedSpec ("abc").data = true ∧
      (parse_edit_flag [] ("abc").data =
          Except.error (.malformedEditSpec ("abc").data) ∧
        ∃ pre post,
          (EditError.malformedEditSpec ("abc").data).message = pre ++ ("abc").data ++ post) :=
  ⟨by decide, malformed_edit_spec_rejected [] ("abc").data (by decide)⟩

/-- The row of the accumulated position counts newline bytes. -/
theorem foldl_advance_row :
    ∀ (l : List Nat) (p : Point), (l.foldl advance p).row = p.row + l.count 10 := by
  intro l
  induction l with
  | nil => intro p; simp
  | cons c rest ih =>
    intro p
    rw [List.foldl_cons, ih]
    unfold advance
    by_cases hc : c = 10
    · subst hc
      simp [List.count_cons]
      omega
    · rw [if_neg hc]
      simp only [List.count_cons]
      have : ¬ (c == 10) = true := by simpa using hc
      rw [if_neg this]
      omega

/-- C6: on any buffer of length 4, the edit spec `$ 0 ;` parses to position 4
(the `$` marker maps to the buffer length), deleted length 0 and inserted text
`;`; applying it gives a buffer of length 5, `new_end_byte = 5`, and the new
end row equals the old end row (the insertion adds no newline and the edit is
at the end of the buffer). -/
theorem append_semicolon_scenario (buf : List Nat) (h : buf.length = 4) :
    parse_edit_flag buf ("$ 0 ;").data = Except.ok ⟨4, 0, [59]⟩ ∧
      ∃ ie buf2, perform_edit buf ⟨4, 0, [59]⟩ = some (ie, buf2) ∧
        buf2.length = 5 ∧ ie.new_end_byte = 5 ∧
        ie.new_end_position.row = ie.old_end_position.row := by
  have hsplit : splitChar ' ' ("$ 0 ;").data = [['$'], ['0'], [';']] := by decide
  have hpos : parsePosition buf ['$'] = some buf.length := by
    unfold parsePosition
    rw [if_pos rfl]
  constructor
  · unfold parse_edit_flag
    rw [hsplit]
    simp only []
    rw [hpos]
    have hdel : from_str_radix_10 ['0'] = some 0 := by decide
    rw [hdel]
    have hins : utf8Bytes (intercalateChars [' '] [[';']]) = [59] := by decide
    rw [hins, h]
  · obtain ⟨ie, buf2, heq, hs, ho, hn, hps, hpo, hpn, hbuf, hlen1, hlen2⟩ :=
      perform_edit_some_of_le buf ⟨4, 0, [59]⟩ (by simp; omega)
    simp only at hs ho hn hps hpo hpn hbuf hlen1 hlen2
    have htake : buf.take 4 = buf := by
      rw [← h]
      simp
    have hdrop : buf.drop 4 = [] := by
      rw [← h]
      simp
    have hbuf2 : buf2 = buf ++ [59] := by
      rw [hbuf, htake, hdrop]
      simp
    have hlen5 : buf2.length = 5 := by
      rw [hbuf2]
      simp [h]
    refine ⟨ie, buf2, heq, hlen5, by omega, ?_⟩
    have hpo2 : ie.old_end_position = buf.foldl advance ⟨0, 0⟩ := by
      rw [ho] at hpo
      unfold position_for_offset at hpo
      rw [if_pos (by omega)] at hpo
      have : buf.take (4 + 0) = buf := by simpa using htake
      rw [this] at hpo
      exact (Option.some_inj.mp hpo).symm
    have hpn2 : ie.new_end_position = (buf ++ [59]).foldl advance ⟨0, 0⟩ := by
      rw [hn] at hpn
      unfold position_for_offset at hpn
      have h45 : (4 : Nat) + ([59] : List Nat).length = 5 := by simp
      rw [h45] at hpn
      rw [if_pos (by omega)] at hpn
      have : buf2.take 5 = buf2 := by
        rw [← hlen5]
        simp
      rw [this, hbuf2] at hpn
      exact (Option.some_inj.mp hpn).symm
    rw [hpo2, hpn2, foldl_advance_row, foldl_advance_row]
    simp [List.count_append]

/-- C6 witness: the scenario on the concrete length-4 buffer `abcd`. -/
theorem append_semicolon_scenario_witness :
    ([97, 98, 99, 100] : List Nat).length = 4 ∧
      (parse_edit_flag [97, 98, 99, 100] ("$ 0 ;").data = Except.ok ⟨4, 0, [59]⟩ ∧
        ∃ ie buf2, perform_edit [97, 98, 99, 100] ⟨4, 0, [59]⟩ = some (ie, buf2) ∧
          buf2.length = 5 ∧ ie.new_end_byte = 5 ∧
          ie.new_end_position.row = ie.old_end_position.row) :=
  ⟨by decide, append_semicolon_scenario [97, 98, 99, 100] (by decide)⟩

/-- C9: `parse_edit_flag` performs no bounds check on a raw byte-offset
position: on the empty buffer the spec `5 0 x` parses to an `Edit` at position
5, beyond the buffer end; and `perform_edit` returns `none` (a panic in an
out-of-bounds `position_for_offset` slice or in the splice) exactly when the
precondition `position + deleted_length ≤ buffer length` fails, so it is total
only under that precondition. -/
theorem edit_position_unchecked :
    parse_edit_flag [] ("5 0 x").data = Except.ok ⟨5, 0, [120]⟩ ∧
      ([] : List Nat).length < 5 + 0 ∧
      ∀ (input : List Nat) (e : Edit),
        perform_edit input e = none ↔ input.length < e.position + e.deleted_length :=
  ⟨by rfl, by decide, fun input e => perform_edit_none_iff input e⟩

/-- The node data this core reads from the external tree (spec §3): kind tag,
named flag, error/missing flags, the has-error-in-subtree flag, byte range,
position range, and the optional field name the node carries relative to its
parent (`TreeCursor::field_name`). -/
structure NodeInfo where
  kind : List Char
  named : Bool
  isError : Bool
  isMissing : Bool
  hasErrorFlag : Bool
  startByte : Nat
  endByte : Nat
  startPos : Point
  endPos : Point
  fieldName : Option (List Char)
deriving DecidableEq, Repr

/-- A parse tree node with its children, as exposed by the external tree. -/
inductive NTree where
  | mk (info : NodeInfo) (children : List NTree)

def NTree.info : NTree → NodeInfo
  | .mk i _ => i

def NTree.children : NTree → List NTree
  | .mk _ c => c

def NTree.named (t : NTree) : Bool := t.info.named

def NTree.isError (t : NTree) : Bool := t.info.isError

def NTree.isMissing (t : NTree) : Bool := t.info.isMissing

def NTree.hasErrorFlag (t : NTree) : Bool := t.info.hasErrorFlag

/-- The first-error loop of parse_file_at_path (parse.rs:486-501), written on
the sibling list currently being examined: an erroring node that is itself an
error or missing node is reported; an erroring node that is not descends into
its children (`goto_first_child`, breaking with no result on a leaf); a
non-erroring node advances to the next sibling (`goto_next_sibling`, breaking
with no result at the end of the list — the loop never calls `goto_parent`). -/
def scanForest : List NTree → Option NTree
  | [] => none
  | .mk info ch :: rest =>
    if info.hasErrorFlag then
      if info.isError || info.isMissing then some (.mk info ch)
      else scanForest ch
    else scanForest rest

/-- The first-error scan started at the root (the cursor points at the root
node when the loop begins; the root has no siblings). -/
def find_first_error (t : NTree) : Option NTree :=
  scanForest [t]

/-- The rule of claim C3, as the spec states it: starting at the head of the
current sibling list, a node with an error somewhere in its subtree that is
itself an error or missing node is reported; an erroring non-error node is
entered at its first child; a non-erroring node is skipped in favour of its
next sibling. -/
inductive Reaches : List NTree → NTree → Prop where
  | found (t : NTree) (rest : List NTree) :
      t.hasErrorFlag = true → (t.isError = true ∨ t.isMissing = true) →
      Reaches (t :: rest) t
  | descend (t : NTree) (rest : List NTree) (n : NTree) :
      t.hasErrorFlag = true → t.isError = false → t.isMissing = false →
      Reaches t.children n → Reaches (t :: rest) n
  | skip (t : NTree) (rest : List NTree) (n : NTree) :
      t.hasErrorFlag = false → Reaches rest n → Reaches (t :: rest) n

theorem reaches_of_scanForest :
    ∀ (ts : List NTree) (n : NTree), scanForest ts = some n → Reaches ts n := by
  intro ts
  induction ts using scanForest.induct with
  | case1 =>
    intro n h
    rw [scanForest] at h
    exact Option.noConfusion h
  | case2 info ch rest herr hrep =>
    intro n h
    rw [scanForest, if_pos herr, if_pos hrep] at h
    cases h
    exact Reaches.found _ rest (by simpa [NTree.hasErrorFlag, NTree.info] using herr)
      (by simpa [NTree.isError, NTree.isMissing, NTree.info] using hrep)
  | case3 info ch rest herr hrep ih =>
    intro n h
    rw [scanForest, if_pos herr, if_neg hrep] at h
    simp only [Bool.or_eq_true, not_or, Bool.not_eq_true] at hrep
    exact Reaches.descend _ rest n
      (by simpa [NTree.hasErrorFlag, NTree.info] using herr)
      (by simpa [NTree.isError, NTree.info] using hrep.1)
      (by simpa [NTree.isMissing, NTree.info] using hrep.2)
      (ih n h)
  | case4 info ch rest herr ih =>
    intro n h
    rw [scanForest, if_neg herr] at h
    exact Reaches.skip _ rest n
      (by simpa [NTree.hasErrorFlag, NTree.info] using herr)
      (ih n h)

theorem scanForest_of_reaches :
    ∀ (ts : List NTree) (n : NTree), Reaches ts n → scanForest ts = some n := by
  intro ts n h
  induction h with
  | found t rest herr hrep =>
    cases t with
    | mk info ch =>
      rw [scanForest]
      rw [if_pos (by simpa [NTree.hasErrorFlag, NTree.info] using herr)]
      rw [if_pos (by simpa [NTree.isError, NTree.isMissing, NTree.info] using hrep)]
  | descend t rest n herr he hm hch ih =>
    cases t with
    | mk info ch =>
      rw [scanForest]
      rw [if_pos (by simpa [NTree.hasErrorFlag, NTree.info] using herr)]
      rw [if_neg]
      · simpa [NTree.children] using ih
      · simp only [NTree.isError, NTree.isMissing, NTree.info] at he hm
        simp [he, hm]
  | skip t rest n herr hr ih =>
    cases t with
    | mk info ch =>
      rw [scanForest]
      rw [if_neg (by simpa [NTree.hasErrorFlag, NTree.info] using herr)]
      exact ih

/-- Whether any node of the forest is an error or missing node. -/
def containsErrorNode : List NTree → Bool
  | [] => false
  | .mk info ch :: rest =>
    info.isError || info.isMissing || containsErrorNode ch || containsErrorNode rest

/-- A tree whose only error node sits in the second child of the root, while
the root's first child carries the has-error-in-subtree flag without any
error/missing node below it: the scan descends into the first erroring child
and never returns to the parent to try the later sibling. -/
def demoErrTree : NTree :=
  .mk ⟨("root").data, true, false, false, true, 0, 2, ⟨0, 0⟩, ⟨0, 2⟩, none⟩
    [.mk ⟨("c1").data, true, false, false, true, 0, 1, ⟨0, 0⟩, ⟨0, 1⟩, none⟩ [],
     .mk ⟨("c2").data, true, true, false, true, 1, 2, ⟨0, 1⟩, ⟨0, 2⟩, none⟩ []]

/-- C3: the first-error scan returns a node exactly when the spec's rule
(descend into the first erroring child, else advance to the next sibling,
never back to a parent) reaches that node — so a single error/missing node
reachable by the rule is exactly what is reported; and on `demoErrTree`, whose
only error node is reachable only through the second sibling of an ancestor,
the scan reports no error even though an error node exists. -/
theorem find_first_error_spec :
    (∀ (ts : List NTree) (n : NTree), scanForest ts = some n ↔ Reaches ts n) ∧
      find_first_error demoErrTree = none ∧
      containsErrorNode [demoErrTree] = true := by
  refine ⟨fun ts n => ⟨reaches_of_scanForest ts n, scanForest_of_reaches ts n⟩, ?_, ?_⟩
  · rw [find_first_error, demoErrTree]
    simp [scanForest]
  · rw [demoErrTree]
    simp [containsErrorNode]

/-- One stack entry of the cursor: the parent node, the already-passed left
siblings (nearest first) and the remaining right siblings. -/
structure Crumb where
  parent : NTree
  left : List NTree
  right : List NTree

/-- The movable cursor (`tree_sitter::TreeCursor`): the current node plus the
trail back to the node the walk started at. -/
structure Cursor where
  node : NTree
  stack : List Crumb

/-- `TreeCursor::goto_first_child`: fails on a leaf. -/
def gotoFirstChild (c : Cursor) : Option Cursor :=
  match c.node.children with
  | [] => none
  | x :: xs => some ⟨x, ⟨c.node, [], xs⟩ :: c.stack⟩

/-- `TreeCursor::goto_next_sibling`: fails at the last sibling and at the
start node. -/
def gotoNextSibling (c : Cursor) : Option Cursor :=
  match c.stack with
  | ⟨p, left, r :: rs⟩ :: rest => some ⟨r, ⟨p, c.node :: left, rs⟩ :: rest⟩
  | _ => none

/-- `TreeCursor::goto_parent`: fails at the start node. -/
def gotoParent (c : Cursor) : Option Cursor :=
  match c.stack with
  | ⟨p, _, _⟩ :: rest => some ⟨p, rest⟩
  | [] => none

/-- `StepContext` (parse.rs:41-45): the node, the cursor's current field name
and the indent level handed to a render strategy. -/
structure StepContext where
  node : NTree
  fieldName : Option (List Char)
  indentLevel : Int

/-- `Step` (parse.rs:34-39): the four traversal events a render strategy
consumes. -/
inductive Step where
  | afterChildren (c : StepContext)
  | ident (c : StepContext)
  | node (c : StepContext)
  | lf (c : StepContext)

/-- The loop state of `StepRender::render` (parse.rs:295-345): cursor,
`indent_level` (a Rust `usize`, modelled as `Int` so that the decrement is
total and non-underflow is a provable statement), `needs_visit_children` and
`needs_newline`. -/
structure RState where
  cursor : Cursor
  indentLevel : Int
  needsVisitChildren : Bool
  needsNewline : Bool

/-- Emission condition of the loop: `is_named || self.show_all`. -/
def qualifies (showAll : Bool) (n : NTree) : Bool :=
  n.named || showAll

/-- The `StepContext` built at the top of each loop iteration. -/
def mkContext (s : RState) : StepContext :=
  ⟨s.cursor.node, s.cursor.node.info.fieldName, s.indentLevel⟩

/-- One iteration of the `StepRender::render` loop (parse.rs:299-340): the
events it hands to the strategy, and either the next state or `none` when the
loop breaks.  In the descend phase a qualifying node emits (line feed when not
the first emitted node), then `Ident` and `Node`, and the cursor tries the
first child; in the ascend phase a qualifying node emits `AfterChildren`, and
the cursor tries the next sibling, then the parent (decrementing the indent),
then breaks. -/
def renderIter (showAll : Bool) (s : RState) : List Step × Option RState :=
  let node := s.cursor.node
  let context := mkContext s
  let q := qualifies showAll node
  if s.needsVisitChildren then
    let evs := if q then
        (if s.needsNewline then [Step.lf context] else []) ++
          [Step.ident context, Step.node context]
      else []
    let nl := if q then true else s.needsNewline
    match gotoFirstChild s.cursor with
    | some c2 => (evs, some ⟨c2, s.indentLevel + 1, true, nl⟩)
    | none => (evs, some ⟨s.cursor, s.indentLevel, false, nl⟩)
  else
    let evs := if q then [Step.afterChildren context] else []
    match gotoNextSibling s.cursor with
    | some c2 => (evs, some ⟨c2, s.indentLevel, true, s.needsNewline⟩)
    | none =>
      match gotoParent s.cursor with
      | some c2 => (evs, some ⟨c2, s.indentLevel - 1, false, s.needsNewline⟩)
      | none => (evs, none)

/-- Zero or more loop iterations from one state to another, collecting the
emitted events. -/
inductive RenderSteps (showAll : Bool) : RState → List Step → RState → Prop where
  | refl (s : RState) : RenderSteps showAll s [] s
  | step {s : RState} {evs : List Step} {s2 : RState} {tr : List Step} {s3 : RState} :
      renderIter showAll s = (evs, some s2) → RenderSteps showAll s2 tr s3 →
      RenderSteps showAll s (evs ++ tr) s3

/-- A complete run of the loop from a state to the break, collecting all
emitted events. -/
inductive RenderTerm (showAll : Bool) : RState → List Step → Prop where
  | done {s : RState} {evs : List Step} :
      renderIter showAll s = (evs, none) → RenderTerm showAll s evs
  | step {s : RState} {evs : List Step} {s2 : RState} {tr : List Step} :
      renderIter showAll s = (evs, some s2) → RenderTerm showAll s2 tr →
      RenderTerm showAll s (evs ++ tr)

theorem renderSteps_trans {showAll : Bool} {s1 : RState} {t1 : List Step} {s2 : RState}
    {t2 : List Step} {s3 : RState} (h1 : RenderSteps showAll s1 t1 s2)
    (h2 : RenderSteps showAll s2 t2 s3) : RenderSteps showAll s1 (t1 ++ t2) s3 := by
  induction h1 with
  | refl s => simpa using h2
  | step hit _ ih =>
    rw [List.append_assoc]
    exact RenderSteps.step hit (ih h2)

theorem renderSteps_toTerm {showAll : Bool} {s1 : RState} {t1 : List Step} {s2 : RState}
    {t2 : List Step} (h1 : RenderSteps showAll s1 t1 s2) (h2 : RenderTerm showAll s2 t2) :
    RenderTerm showAll s1 (t1 ++ t2) := by
  induction h1 with
  | refl s => simpa using h2
  | step hit _ ih =>
    rw [List.append_assoc]
    exact RenderTerm.step hit (ih h2)

/-- The events a qualifying node emits on entry: optional line feed, then
`Ident` and `Node`. -/
def headEvs (showAll : Bool) (n : NTree) (i : Int) (nl : Bool) : List Step :=
  if qualifies showAll n then
    (if nl then [Step.lf ⟨n, n.info.fieldName, i⟩] else []) ++
      [Step.ident ⟨n, n.info.fieldName, i⟩, Step.node ⟨n, n.info.fieldName, i⟩]
  else []

/-- The events a qualifying node emits on exit. -/
def tailEvs (showAll : Bool) (n : NTree) (i : Int) : List Step :=
  if qualifies showAll n then [Step.afterChildren ⟨n, n.info.fieldName, i⟩] else []

/-- The full event trace of the loop over a sibling forest at a given indent
with a given incoming `needs_newline` flag, together with the outgoing flag. -/
def walkTrace (showAll : Bool) : List NTree → Int → Bool → List Step × Bool
  | [], _, nl => ([], nl)
  | .mk info ch :: rest, i, nl =>
    (headEvs showAll (.mk info ch) i nl ++
        (walkTrace showAll ch (i + 1)
          (if qualifies showAll (.mk info ch) then true else nl)).1 ++
        tailEvs showAll (.mk info ch) i ++
        (walkTrace showAll rest i
          (walkTrace showAll ch (i + 1)
            (if qualifies showAll (.mk info ch) then true else nl)).2).1,
      (walkTrace showAll rest i
        (walkTrace showAll ch (i + 1)
          (if qualifies showAll (.mk info ch) then true else nl)).2).2)

theorem one_le_sizeOf_ntree (t : NTree) : 1 ≤ sizeOf t := by
  cases t with
  | mk info ch =>
    simp only [NTree.mk.sizeOf_spec]
    omega

theorem one_le_sizeOf_list (l : List NTree) : 1 ≤ sizeOf l := by
  cases l with
  | nil => simp
  | cons a l => simp only [List.cons.sizeOf_spec]; omega

theorem one_le_sizeOf_info (i : NodeInfo) : 1 ≤ sizeOf i := by
  cases i
  simp only [NodeInfo.mk.sizeOf_spec]
  omega

/-- Simulation statement for one subtree: starting the loop in the descend
phase at `c`, it reaches the ascend phase at `c` with the cursor, indent and
stack unchanged, having emitted exactly the node's entry events followed by
the full trace of its children. -/
def NodeSim (showAll : Bool) (c : NTree) : Prop :=
  ∀ (st : List Crumb) (i : Int) (nl : Bool),
    RenderSteps showAll ⟨⟨c, st⟩, i, true, nl⟩
      (headEvs showAll c i nl ++
        (walkTrace showAll c.children (i + 1) (if qualifies showAll c then true else nl)).1)
      ⟨⟨c, st⟩, i, false,
        (walkTrace showAll c.children (i + 1) (if qualifies showAll c then true else nl)).2⟩

/-- Simulation statement for a sibling forest: starting the loop in the
descend phase at the first sibling, it works through all the siblings and
returns to the parent in the ascend phase one indent level down, having
emitted the forest's full trace. -/
def ForestSim (showAll : Bool) (c : NTree) (rest : List NTree) : Prop :=
  ∀ (p : NTree) (left : List NTree) (st : List Crumb) (i : Int) (nl : Bool),
    RenderSteps showAll ⟨⟨c, ⟨p, left, rest⟩ :: st⟩, i, true, nl⟩
      ((walkTrace showAll (c :: rest) i nl).1)
      ⟨⟨p, st⟩, i - 1, false, (walkTrace showAll (c :: rest) i nl).2⟩

theorem walk_sim (showAll : Bool) :
    ∀ N : Nat, (∀ c : NTree, sizeOf c ≤ N → NodeSim showAll c) ∧
      (∀ (c : NTree) (rest : List NTree), sizeOf c + sizeOf rest ≤ N →
        ForestSim showAll c rest) := by
  intro N
  induction N with
  | zero =>
    constructor
    · intro c hc
      exact absurd hc (by have := one_le_sizeOf_ntree c; omega)
    · intro c rest hc
      exact absurd hc (by have := one_le_sizeOf_ntree c; omega)
  | succ N ih =>
    obtain ⟨ihN, ihF⟩ := ih
    constructor
    · rintro ⟨info, ch⟩ hc st i nl
      cases ch with
      | nil =>
        have hiter : renderIter showAll ⟨⟨NTree.mk info [], st⟩, i, true, nl⟩ =
            (headEvs showAll (NTree.mk info []) i nl,
              some ⟨⟨NTree.mk info [], st⟩, i, false,
                if qualifies showAll (NTree.mk info []) then true else nl⟩) := rfl
        have hsteps := RenderSteps.step hiter (RenderSteps.refl _)
        simpa [NTree.children, walkTrace] using hsteps
      | cons x xs =>
        have hx : sizeOf x + sizeOf xs ≤ N := by
          have h1 := one_le_sizeOf_info info
          simp only [NTree.mk.sizeOf_spec, List.cons.sizeOf_spec] at hc
          omega
        have hF := ihF x xs hx (NTree.mk info (x :: xs)) [] st (i + 1)
          (if qualifies showAll (NTree.mk info (x :: xs)) then true else nl)
        have hiter : renderIter showAll ⟨⟨NTree.mk info (x :: xs), st⟩, i, true, nl⟩ =
            (headEvs showAll (NTree.mk info (x :: xs)) i nl,
              some ⟨⟨x, ⟨NTree.mk info (x :: xs), [], xs⟩ :: st⟩, i + 1, true,
                if qualifies showAll (NTree.mk info (x :: xs)) then true else nl⟩) := rfl
        rw [show i + 1 - 1 = i by omega] at hF
        exact RenderSteps.step hiter hF
    · intro c rest hsize p left st i nl
      have hc : sizeOf c ≤ N := by
        have := one_le_sizeOf_list rest
        omega
      have hNode := ihN c hc (⟨p, left, rest⟩ :: st) i nl
      obtain ⟨info, ch⟩ := c
      cases rest with
      | nil =>
        have hiter2 : renderIter showAll ⟨⟨NTree.mk info ch, ⟨p, left, []⟩ :: st⟩, i, false,
            (walkTrace showAll ch (i + 1)
              (if qualifies showAll (NTree.mk info ch) then true else nl)).2⟩ =
            (tailEvs showAll (NTree.mk info ch) i,
              some ⟨⟨p, st⟩, i - 1, false,
                (walkTrace showAll ch (i + 1)
                  (if qualifies showAll (NTree.mk info ch) then true else nl)).2⟩) := rfl
        have hsteps := renderSteps_trans hNode (RenderSteps.step hiter2 (RenderSteps.refl _))
        simp only [walkTrace, NTree.children] at hsteps ⊢
        simpa using hsteps
      | cons r rs =>
        have hrs : sizeOf r + sizeOf rs ≤ N := by
          have h1 := one_le_sizeOf_ntree (NTree.mk info ch)
          simp only [List.cons.sizeOf_spec] at hsize
          omega
        have hF2 := ihF r rs hrs p (NTree.mk info ch :: left) st i
          ((walkTrace showAll ch (i + 1)
            (if qualifies showAll (NTree.mk info ch) then true else nl)).2)
        have hiter2 : renderIter showAll ⟨⟨NTree.mk info ch, ⟨p, left, r :: rs⟩ :: st⟩, i, false,
            (walkTrace showAll ch (i + 1)
              (if qualifies showAll (NTree.mk info ch) then true else nl)).2⟩ =
            (tailEvs showAll (NTree.mk info ch) i,
              some ⟨⟨r, ⟨p, NTree.mk info ch :: left, rs⟩ :: st⟩, i, true,
                (walkTrace showAll ch (i + 1)
                  (if qualifies showAll (NTree.mk info ch) then true else nl)).2⟩) := rfl
        have hsteps := renderSteps_trans hNode (RenderSteps.step hiter2 hF2)
        simp only [walkTrace, NTree.children] at hsteps ⊢
        simpa [List.append_assoc] using hsteps

/-- The loop's starting state (parse.rs:296-298): cursor at the start node,
indent 0, descend phase, no newline pending. -/
def initState (t : NTree) : RState :=
  ⟨⟨t, []⟩, 0, true, false⟩

/-- The full event trace of one `render` run over the tree `t`. -/
def renderTrace (showAll : Bool) (t : NTree) : List Step :=
  (walkTrace showAll [t] 0 false).1

/-- The loop, started at `t`, terminates and emits exactly `renderTrace`. -/
theorem render_terminates (showAll : Bool) (t : NTree) :
    RenderTerm showAll (initState t) (renderTrace showAll t) := by
  have hNode := (walk_sim showAll (sizeOf t)).1 t le_rfl [] 0 false
  have hiter : renderIter showAll ⟨⟨t, []⟩, 0, false,
      (walkTrace showAll t.children (0 + 1)
        (if qualifies showAll t then true else false)).2⟩ =
      (tailEvs showAll t 0, none) := rfl
  have hterm := renderSteps_toTerm hNode (RenderTerm.done hiter)
  obtain ⟨info, ch⟩ := t
  simpa [initState, renderTrace, walkTrace, NTree.children] using hterm

def isNodeStep : Step → Bool
  | .node _ => true
  | _ => false

def isAfterChildrenStep : Step → Bool
  | .afterChildren _ => true
  | _ => false

/-- Number of nodes of the forest that qualify for emission. -/
def qualCount (showAll : Bool) : List NTree → Nat
  | [] => 0
  | .mk info ch :: rest =>
    (if qualifies showAll (.mk info ch) then 1 else 0) +
      qualCount showAll ch + qualCount showAll rest

/-- Number of named nodes of the forest. -/
def namedCount : List NTree → Nat
  | [] => 0
  | .mk info ch :: rest =>
    (if info.named then 1 else 0) + namedCount ch + namedCount rest

theorem headEvs_count_node (showAll : Bool) (n : NTree) (i : Int) (nl : Bool) :
    (headEvs showAll n i nl).countP (fun e => isNodeStep e) =
      if qualifies showAll n then 1 else 0 := by
  unfold headEvs
  by_cases hq : qualifies showAll n
  · rw [if_pos hq, if_pos hq]
    by_cases hnl : nl <;>
      simp [hnl, List.countP_cons, List.countP_append, isNodeStep]
  · rw [if_neg hq, if_neg hq]
    simp

theorem headEvs_count_after (showAll : Bool) (n : NTree) (i : Int) (nl : Bool) :
    (headEvs showAll n i nl).countP (fun e => isAfterChildrenStep e) = 0 := by
  unfold headEvs
  by_cases hq : qualifies showAll n
  · rw [if_pos hq]
    by_cases hnl : nl <;>
      simp [hnl, List.countP_cons, List.countP_append, isAfterChildrenStep]
  · rw [if_neg hq]
    simp

theorem tailEvs_count_node (showAll : Bool) (n : NTree) (i : Int) :
    (tailEvs showAll n i).countP (fun e => isNodeStep e) = 0 := by
  unfold tailEvs
  by_cases hq : qualifies showAll n
  · rw [if_pos hq]
    simp [List.countP_cons, isNodeStep]
  · rw [if_neg hq]
    simp

theorem tailEvs_count_after (showAll : Bool) (n : NTree) (i : Int) :
    (tailEvs showAll n i).countP (fun e => isAfterChildrenStep e) =
      if qualifies showAll n then 1 else 0 := by
  unfold tailEvs
  by_cases hq : qualifies showAll n
  · rw [if_pos hq, if_pos hq]
    simp [List.countP_cons, isAfterChildrenStep]
  · rw [if_neg hq, if_neg hq]
    simp

theorem walkTrace_count_node (showAll : Bool) (ts : List NTree) (i : Int) (nl : Bool) :
    (walkTrace showAll ts i nl).1.countP (fun e => isNodeStep e) = qualCount showAll ts := by
  induction ts, i, nl using walkTrace.induct showAll with
  | case1 i nl => simp [walkTrace, qualCount]
  | case2 info ch rest i nl ihch ihrest =>
    simp only [dite_eq_ite] at ihch ihrest
    simp only [walkTrace, qualCount, List.countP_append]
    rw [headEvs_count_node, tailEvs_count_node]
    rw [ihch, ihrest]
    omega

theorem walkTrace_count_after (showAll : Bool) (ts : List NTree) (i : Int) (nl : Bool) :
    (walkTrace showAll ts i nl).1.countP (fun e => isAfterChildrenStep e) =
      qualCount showAll ts := by
  induction ts, i, nl using walkTrace.induct showAll with
  | case1 i nl => simp [walkTrace, qualCount]
  | case2 info ch rest i nl ihch ihrest =>
    simp only [dite_eq_ite] at ihch ihrest
    simp only [walkTrace, qualCount, List.countP_append]
    rw [headEvs_count_after, tailEvs_count_after]
    rw [ihch, ihrest]
    omega

theorem qualCount_false_eq_namedCount :
    ∀ ts : List NTree, qualCount false ts = namedCount ts := by
  intro ts
  induction ts using namedCount.induct with
  | case1 => simp [qualCount, namedCount]
  | case2 info ch rest ihch ihrest =>
    simp only [qualCount, namedCount, qualifies, NTree.named, NTree.info, Bool.or_false]
    omega

/-- C4: the loop terminates on every tree, and in its full event trace the
number of `Node` (enter) events and the number of `AfterChildren` (leave)
events both equal the number of qualifying nodes; with `show_all` off the
qualifying nodes are exactly the named nodes. -/
theorem traversal_event_balance (showAll : Bool) (t : NTree) :
    RenderTerm showAll (initState t) (renderTrace showAll t) ∧
      (renderTrace showAll t).countP (fun e => isNodeStep e) = qualCount showAll [t] ∧
      (renderTrace showAll t).countP (fun e => isAfterChildrenStep e) =
        qualCount showAll [t] ∧
      qualCount false [t] = namedCount [t] :=
  ⟨render_terminates showAll t,
    walkTrace_count_node showAll [t] 0 false,
    walkTrace_count_after showAll [t] 0 false,
    qualCount_false_eq_namedCount [t]⟩

theorem gotoFirstChild_stack {c c2 : Cursor} (h : gotoFirstChild c = some c2) :
    c2.stack.length = c.stack.length + 1 := by
  unfold gotoFirstChild at h
  cases hch : c.node.children with
  | nil =>
    rw [hch] at h
    exact Option.noConfusion h
  | cons x xs =>
    rw [hch] at h
    simp only [Option.some.injEq] at h
    subst h
    simp

theorem gotoNextSibling_stack {c c2 : Cursor} (h : gotoNextSibling c = some c2) :
    c2.stack.length = c.stack.length := by
  unfold gotoNextSibling at h
  cases hst : c.stack with
  | nil =>
    rw [hst] at h
    exact Option.noConfusion h
  | cons cr rest =>
    obtain ⟨p, left, right⟩ := cr
    cases right with
    | nil =>
      rw [hst] at h
      exact Option.noConfusion h
    | cons r rs =>
      rw [hst] at h
      simp only [Option.some.injEq] at h
      subst h
      simp [hst]

theorem gotoParent_stack {c c2 : Cursor} (h : gotoParent c = some c2) :
    c.stack.length = c2.stack.length + 1 := by
  unfold gotoParent at h
  cases hst : c.stack with
  | nil =>
    rw [hst] at h
    exact Option.noConfusion h
  | cons cr rest =>
    obtain ⟨p, left, right⟩ := cr
    rw [hst] at h
    simp only [Option.some.injEq] at h
    subst h
    simp [hst]

/-- One loop iteration keeps `indent_level` equal to the cursor's depth below
the start node: descending to a first child increments both, returning to a
parent decrements both, and the other moves change neither. -/
theorem renderIter_depth (showAll : Bool) (s s2 : RState) (evs : List Step)
    (h : renderIter showAll s = (evs, some s2))
    (hinv : s.indentLevel = (s.cursor.stack.length : Int)) :
    s2.indentLevel = (s2.cursor.stack.length : Int) := by
  unfold renderIter at h
  cases hv : s.needsVisitChildren with
  | true =>
    simp only [hv, if_true] at h
    cases hm : gotoFirstChild s.cursor with
    | some c2 =>
      rw [hm] at h
      simp only [Prod.mk.injEq, Option.some.injEq] at h
      obtain ⟨-, rfl⟩ := h
      have := gotoFirstChild_stack hm
      simp only []
      rw [this]
      push_cast
      omega
    | none =>
      rw [hm] at h
      simp only [Prod.mk.injEq, Option.some.injEq] at h
      obtain ⟨-, rfl⟩ := h
      exact hinv
  | false =>
    simp only [hv, Bool.false_eq_true, if_false] at h
    cases hm : gotoNextSibling s.cursor with
    | some c2 =>
      rw [hm] at h
      simp only [Prod.mk.injEq, Option.some.injEq] at h
      obtain ⟨-, rfl⟩ := h
      have := gotoNextSibling_stack hm
      simp only []
      rw [this]
      exact hinv
    | none =>
      rw [hm] at h
      cases hp : gotoParent s.cursor with
      | some c2 =>
        rw [hp] at h
        simp only [Prod.mk.injEq, Option.some.injEq] at h
        obtain ⟨-, rfl⟩ := h
        have := gotoParent_stack hp
        simp only []
        rw [hinv, this]
        push_cast
        omega
      | none =>
        rw [hp] at h
        simp only [Prod.mk.injEq] at h
        exact absurd h.2 (by simp)

theorem steps_depth (showAll : Bool) {s0 : RState} {tr : List Step} {s : RState}
    (h : RenderSteps showAll s0 tr s)
    (h0 : s0.indentLevel = (s0.cursor.stack.length : Int)) :
    s.indentLevel = (s.cursor.stack.length : Int) := by
  induction h with
  | refl s => exact h0
  | step hit _ ih => exact ih (renderIter_depth _ _ _ _ hit h0)

/-- C10: at every state the loop reaches, `indent_level` equals the cursor's
depth below the start node (in particular it is never negative, so the `usize`
decrement never underflows and is never attempted at the start node); and the
loop terminates back at the start node with `indent_level` 0. -/
theorem indent_tracks_depth (showAll : Bool) (t : NTree) :
    (∀ (tr : List Step) (s : RState), RenderSteps showAll (initState t) tr s →
        s.indentLevel = (s.cursor.stack.length : Int) ∧ 0 ≤ s.indentLevel) ∧
      ∃ tr sf, RenderSteps showAll (initState t) tr sf ∧
        (renderIter showAll sf).2 = none ∧ sf.indentLevel = 0 ∧ sf.cursor.node = t := by
  constructor
  · intro tr s h
    have hd := steps_depth showAll h (by simp [initState])
    refine ⟨hd, ?_⟩
    rw [hd]
    omega
  · have hNode := (walk_sim showAll (sizeOf t)).1 t le_rfl [] 0 false
    exact ⟨_, _, hNode, rfl, rfl, rfl⟩

/-- C10 witness: the invariant instantiated at the loop's initial state on a
concrete tree via the empty step sequence. -/
theorem indent_tracks_depth_witness :
    (initState demoErrTree).indentLevel =
        (((initState demoErrTree).cursor.stack.length : Nat) : Int) ∧
      0 ≤ (initState demoErrTree).indentLevel :=
  (indent_tracks_depth false demoErrTree).1 [] (initState demoErrTree)
    (RenderSteps.refl _)

/-- `&src[a..b]`: the bytes of the half-open range, assuming `a ≤ b ≤ len`
(callers guard; out of range is a panic at the call site). -/
def sliceRange (src : List Nat) (a b : Nat) : List Nat :=
  (src.drop a).take (b - a)

/-- `html_escape::encode_text`: replaces `&`, `<`, `>` by their entities. -/
def htmlEscapeBytes (l : List Nat) : List Nat :=
  l.flatMap fun b =>
    if b = 38 then utf8Bytes ("&amp;").data
    else if b = 60 then utf8Bytes ("&lt;").data
    else if b = 62 then utf8Bytes ("&gt;").data
    else [b]

/-- UTF-8 validity checker (the acceptance condition of
`std::str::from_utf8`), as a byte-at-a-time automaton: `pending` lists the
admissible ranges of the continuation bytes still expected. -/
def utf8Valid : List Nat → List (Nat × Nat) → Bool
  | [], pending => pending.isEmpty
  | b :: rest, [] =>
    if b ≤ 0x7F then utf8Valid rest []
    else if 0xC2 ≤ b && b ≤ 0xDF then utf8Valid rest [(0x80, 0xBF)]
    else if b = 0xE0 then utf8Valid rest [(0xA0, 0xBF), (0x80, 0xBF)]
    else if (0xE1 ≤ b && b ≤ 0xEC) || b = 0xEE || b = 0xEF then
      utf8Valid rest [(0x80, 0xBF), (0x80, 0xBF)]
    else if b = 0xED then utf8Valid rest [(0x80, 0x9F), (0x80, 0xBF)]
    else if b = 0xF0 then utf8Valid rest [(0x90, 0xBF), (0x80, 0xBF), (0x80, 0xBF)]
    else if 0xF1 ≤ b && b ≤ 0xF3 then
      utf8Valid rest [(0x80, 0xBF), (0x80, 0xBF), (0x80, 0xBF)]
    else if b = 0xF4 then utf8Valid rest [(0x80, 0x8F), (0x80, 0xBF), (0x80, 0xBF)]
    else false
  | b :: rest, (lo, hi) :: ps => (lo ≤ b && b ≤ hi) && utf8Valid rest ps

def isValidUtf8 (l : List Nat) : Bool :=
  utf8Valid l []

/-- `"  "` repeated `indent_level` times (an `i32` in the Rust code: a
negative level writes nothing). -/
def indentBytes (i : Int) : List Nat :=
  List.replicate (2 * i.toNat) 32

/-- `needs_newline`-style flag update: set when the condition holds, else kept. -/
def nlIf (b : Bool) (nl : Bool) : Bool :=
  if b then true else nl

/-- The open-tag output of one node in the debug_xml loop (parse.rs:454-465):
nothing for an anonymous node; for a named node an optional line feed, the
indent, `<kind`, the optional ` type="field"` attribute and `>`. -/
def xmlOpen (info : NodeInfo) (i : Int) (nl : Bool) : List Nat :=
  if info.named then
    (if nl then [10] else []) ++ indentBytes i ++ utf8Bytes ('<' :: info.kind) ++
      (match info.fieldName with
       | some f => utf8Bytes ((" type=").data ++ ("\x22").data ++ f ++ ("\x22").data)
       | none => []) ++ utf8Bytes (">").data
  else []

/-- The close-tag output of one node (parse.rs:441-442): `</kind>` plus a line
feed for a named node, nothing for an anonymous one. -/
def xmlClose (info : NodeInfo) : List Nat :=
  if info.named then utf8Bytes (("</").data ++ info.kind ++ (">\n").data) else []

/-- The loop state of the debug_xml renderer (parse.rs:432-435). -/
structure XState where
  cursor : Cursor
  indentLevel : Int
  didVisitChildren : Bool
  needsNewline : Bool
  tags : List (List Char)

/-- One iteration of the debug_xml loop (parse.rs:436-481): the bytes written
to stdout and either the next state or `none` (inner) when the loop breaks.
The outer `none` is a panic: popping an empty tag stack
(`tag.expect("there is a tag")`), an out-of-range leaf slice, or
`from_utf8(..).expect(..)` on invalid bytes. -/
def xmlIter (src : List Nat) (s : XState) : Option (List Nat × Option XState) :=
  let node := s.cursor.node
  if s.didVisitChildren then
    match (if node.named then
        match s.tags with
        | tag :: rest2 => some (utf8Bytes (("</").data ++ tag ++ (">\n").data), rest2, true)
        | [] => none
      else some (([] : List Nat), s.tags, s.needsNewline)) with
    | none => none
    | some (out, tags2, nl2) =>
      match gotoNextSibling s.cursor with
      | some c2 => some (out, some ⟨c2, s.indentLevel, false, nl2, tags2⟩)
      | none =>
        match gotoParent s.cursor with
        | some c2 => some (out, some ⟨c2, s.indentLevel - 1, true, nl2, tags2⟩)
        | none => some (out, none)
  else
    let openOut := xmlOpen s.cursor.node.info s.indentLevel s.needsNewline
    let tags2 := if node.named then node.info.kind :: s.tags else s.tags
    let nl2 := nlIf node.named s.needsNewline
    match gotoFirstChild s.cursor with
    | some c2 => some (openOut, some ⟨c2, s.indentLevel + 1, false, nl2, tags2⟩)
    | none =>
      if node.info.startByte ≤ node.info.endByte ∧ node.info.endByte ≤ src.length then
        if isValidUtf8 (sliceRange src node.info.startByte node.info.endByte) then
          some (openOut ++
              htmlEscapeBytes (sliceRange src node.info.startByte node.info.endByte),
            some ⟨s.cursor, s.indentLevel, true, nl2, tags2⟩)
        else none
      else none

/-- Zero or more panic-free iterations of the debug_xml loop. -/
inductive XSteps (src : List Nat) : XState → List Nat → XState → Prop where
  | refl (s : XState) : XSteps src s [] s
  | step {s : XState} {out : List Nat} {s2 : XState} {tr : List Nat} {s3 : XState} :
      xmlIter src s = some (out, some s2) → XSteps src s2 tr s3 →
      XSteps src s (out ++ tr) s3

/-- A complete panic-free run of the debug_xml loop to the break. -/
inductive XTerm (src : List Nat) : XState → List Nat → Prop where
  | done {s : XState} {out : List Nat} :
      xmlIter src s = some (out, none) → XTerm src s out
  | step {s : XState} {out : List Nat} {s2 : XState} {tr : List Nat} :
      xmlIter src s = some (out, some s2) → XTerm src s2 tr → XTerm src s (out ++ tr)

theorem xsteps_trans {src : List Nat} {s1 : XState} {t1 : List Nat} {s2 : XState}
    {t2 : List Nat} {s3 : XState} (h1 : XSteps src s1 t1 s2) (h2 : XSteps src s2 t2 s3) :
    XSteps src s1 (t1 ++ t2) s3 := by
  induction h1 with
  | refl s => simpa using h2
  | step hit _ ih =>
    rw [List.append_assoc]
    exact XSteps.step hit (ih h2)

theorem xsteps_toTerm {src : List Nat} {s1 : XState} {t1 : List Nat} {s2 : XState}
    {t2 : List Nat} (h1 : XSteps src s1 t1 s2) (h2 : XTerm src s2 t2) :
    XTerm src s1 (t1 ++ t2) := by
  induction h1 with
  | refl s => simpa using h2
  | step hit _ ih =>
    rw [List.append_assoc]
    exact XTerm.step hit (ih h2)

/-- The stdout bytes of the debug_xml loop over a sibling forest at an indent,
with the incoming `needs_newline` flag, plus the outgoing flag: every named
node contributes a matching `<kind ...>` / `</kind>` pair around its body, an
anonymous node contributes only its body, and the body of a leaf (named or
anonymous) is its source byte range escaped for `&`, `<`, `>`. -/
def xmlTrace (src : List Nat) : List NTree → Int → Bool → List Nat × Bool
  | [], _, nl => ([], nl)
  | .mk info [] :: rest, i, nl =>
    (xmlOpen info i nl ++
        htmlEscapeBytes (sliceRange src info.startByte info.endByte) ++
        xmlClose info ++
        (xmlTrace src rest i (nlIf info.named nl)).1,
      (xmlTrace src rest i (nlIf info.named nl)).2)
  | .mk info (x :: xs) :: rest, i, nl =>
    (xmlOpen info i nl ++
        (xmlTrace src (x :: xs) (i + 1) (nlIf info.named nl)).1 ++
        xmlClose info ++
        (xmlTrace src rest i
          (nlIf info.named (xmlTrace src (x :: xs) (i + 1) (nlIf info.named nl)).2)).1,
      (xmlTrace src rest i
        (nlIf info.named (xmlTrace src (x :: xs) (i + 1) (nlIf info.named nl)).2)).2)

/-- Every leaf of the forest has a byte range inside `src` holding valid
UTF-8: the condition under which the debug_xml loop cannot panic. -/
def leavesOk (src : List Nat) : List NTree → Bool
  | [] => true
  | .mk info [] :: rest =>
    (decide (info.startByte ≤ info.endByte) && decide (info.endByte ≤ src.length) &&
        isValidUtf8 (sliceRange src info.startByte info.endByte)) &&
      leavesOk src rest
  | .mk _info (x :: xs) :: rest => leavesOk src (x :: xs) && leavesOk src rest

theorem nlIf_idem (b nl : Bool) : nlIf b (nlIf b nl) = nlIf b nl := by
  cases b <;> rfl

theorem leavesOk_cons {src : List Nat} {c : NTree} {rest : List NTree}
    (h : leavesOk src (c :: rest) = true) :
    leavesOk src [c] = true ∧ leavesOk src rest = true := by
  obtain ⟨info, ch⟩ := c
  cases ch with
  | nil =>
    simp only [leavesOk, Bool.and_eq_true] at h ⊢
    exact ⟨⟨h.1, trivial⟩, h.2⟩
  | cons x xs =>
    simp only [leavesOk, Bool.and_eq_true] at h ⊢
    exact ⟨⟨h.1, trivial⟩, h.2⟩

/-- The bytes a node writes between entering it (descend phase) and reaching
its own ascend phase: its open tag and its body. -/
def xmlPre (src : List Nat) (c : NTree) (i : Int) (nl : Bool) : List Nat :=
  match c with
  | .mk info [] =>
    xmlOpen info i nl ++ htmlEscapeBytes (sliceRange src info.startByte info.endByte)
  | .mk info (x :: xs) =>
    xmlOpen info i nl ++ (xmlTrace src (x :: xs) (i + 1) (nlIf info.named nl)).1

/-- The `needs_newline` flag when a node reaches its own ascend phase. -/
def xmlPreNl (src : List Nat) (c : NTree) (i : Int) (nl : Bool) : Bool :=
  match c with
  | .mk info [] => nlIf info.named nl
  | .mk info (x :: xs) => (xmlTrace src (x :: xs) (i + 1) (nlIf info.named nl)).2

/-- Simulation statement for one subtree of the debug_xml loop. -/
def XNodeSim (src : List Nat) (c : NTree) : Prop :=
  ∀ (st : List Crumb) (i : Int) (nl : Bool) (tags : List (List Char)),
    leavesOk src [c] = true →
    XSteps src ⟨⟨c, st⟩, i, false, nl, tags⟩ (xmlPre src c i nl)
      ⟨⟨c, st⟩, i, true, xmlPreNl src c i nl,
        if c.named then c.info.kind :: tags else tags⟩

/-- Simulation statement for a sibling forest of the debug_xml loop: the run
works through the siblings and returns to the parent with the tag stack
restored. -/
def XForestSim (src : List Nat) (c : NTree) (rest : List NTree) : Prop :=
  ∀ (p : NTree) (left : List NTree) (st : List Crumb) (i : Int) (nl : Bool)
    (tags : List (List Char)),
    leavesOk src (c :: rest) = true →
    XSteps src ⟨⟨c, ⟨p, left, rest⟩ :: st⟩, i, false, nl, tags⟩
      ((xmlTrace src (c :: rest) i nl).1)
      ⟨⟨p, st⟩, i - 1, true, (xmlTrace src (c :: rest) i nl).2, tags⟩

theorem xml_sim (src : List Nat) :
    ∀ N : Nat, (∀ c : NTree, sizeOf c ≤ N → XNodeSim src c) ∧
      (∀ (c : NTree) (rest : List NTree), sizeOf c + sizeOf rest ≤ N →
        XForestSim src c rest) := by
  intro N
  induction N with
  | zero =>
    constructor
    · intro c hc
      exact absurd hc (by have := one_le_sizeOf_ntree c; omega)
    · intro c rest hc
      exact absurd hc (by have := one_le_sizeOf_ntree c; omega)
  | succ N ih =>
    obtain ⟨ihN, ihF⟩ := ih
    constructor
    · rintro ⟨info, ch⟩ hc st i nl tags hok
      cases ch with
      | nil =>
        simp only [leavesOk, Bool.and_eq_true, decide_eq_true_eq] at hok
        have hiter : xmlIter src ⟨⟨NTree.mk info [], st⟩, i, false, nl, tags⟩ =
            some (xmlOpen info i nl ++
                htmlEscapeBytes (sliceRange src info.startByte info.endByte),
              some ⟨⟨NTree.mk info [], st⟩, i, true, nlIf info.named nl,
                if info.named then info.kind :: tags else tags⟩) := by
          have h1 := hok.1.1
          have h2 := hok.1.2
          unfold xmlIter
          simp [NTree.info, NTree.named, NTree.children, gotoFirstChild, h1.1, h1.2, h2,
            nlIf]
        have hsteps := XSteps.step hiter (XSteps.refl _)
        simpa [xmlPre, xmlPreNl, NTree.named, NTree.info] using hsteps
      | cons x xs =>
        have hx : sizeOf x + sizeOf xs ≤ N := by
          have h1 := one_le_sizeOf_info info
          simp only [NTree.mk.sizeOf_spec, List.cons.sizeOf_spec] at hc
          omega
        have hok2 : leavesOk src (x :: xs) = true := by
          simp only [leavesOk, Bool.and_eq_true] at hok
          exact hok.1
        have hF := ihF x xs hx (NTree.mk info (x :: xs)) [] st (i + 1)
          (nlIf info.named nl) (if info.named then info.kind :: tags else tags) hok2
        have hiter : xmlIter src ⟨⟨NTree.mk info (x :: xs), st⟩, i, false, nl, tags⟩ =
            some (xmlOpen info i nl,
              some ⟨⟨x, ⟨NTree.mk info (x :: xs), [], xs⟩ :: st⟩, i + 1, false,
                nlIf info.named nl,
                if info.named then info.kind :: tags else tags⟩) := rfl
        rw [show i + 1 - 1 = i by omega] at hF
        exact XSteps.step hiter hF
    · intro c rest hsize p left st i nl tags hok
      have hc : sizeOf c ≤ N := by
        have := one_le_sizeOf_list rest
        omega
      obtain ⟨hokc, hokrest⟩ := leavesOk_cons hok
      have hNode := ihN c hc (⟨p, left, rest⟩ :: st) i nl tags hokc
      obtain ⟨info, ch⟩ := c
      have hiter2 : ∀ (nl2 : Bool) (nextCur : Option XState),
          True → True := fun _ _ _ => trivial
      cases hna : info.named with
      | true =>
        have htags : (if (NTree.mk info ch).named then (NTree.mk info ch).info.kind :: tags
            else tags) = info.kind :: tags := by
          simp [NTree.named, NTree.info, hna]
        rw [htags] at hNode
        cases rest with
        | nil =>
          have hiterA : xmlIter src ⟨⟨NTree.mk info ch, ⟨p, left, []⟩ :: st⟩, i, true,
              xmlPreNl src (NTree.mk info ch) i nl, info.kind :: tags⟩ =
              some (xmlClose info, some ⟨⟨p, st⟩, i - 1, true,
                nlIf info.named (xmlPreNl src (NTree.mk info ch) i nl), tags⟩) := by
            unfold xmlIter
            simp [NTree.named, NTree.info, hna, xmlClose, gotoNextSibling, gotoParent, nlIf]
          have hsteps := xsteps_trans hNode (XSteps.step hiterA (XSteps.refl _))
          cases ch with
          | nil =>
            simp only [xmlTrace, xmlPre, xmlPreNl] at hsteps ⊢
            simpa [hna, nlIf_idem] using hsteps
          | cons x xs =>
            simp only [xmlTrace, xmlPre, xmlPreNl] at hsteps ⊢
            simpa [hna, nlIf_idem] using hsteps
        | cons r rs =>
          have hrs : sizeOf r + sizeOf rs ≤ N := by
            have h1 := one_le_sizeOf_ntree (NTree.mk info ch)
            simp only [List.cons.sizeOf_spec] at hsize
            omega
          have hF2 := ihF r rs hrs p (NTree.mk info ch :: left) st i
            (nlIf info.named (xmlPreNl src (NTree.mk info ch) i nl)) tags hokrest
          have hiterA : xmlIter src ⟨⟨NTree.mk info ch, ⟨p, left, r :: rs⟩ :: st⟩, i, true,
              xmlPreNl src (NTree.mk info ch) i nl, info.kind :: tags⟩ =
              some (xmlClose info, some ⟨⟨r, ⟨p, NTree.mk info ch :: left, rs⟩ :: st⟩, i,
                false, nlIf info.named (xmlPreNl src (NTree.mk info ch) i nl), tags⟩) := by
            unfold xmlIter
            simp [NTree.named, NTree.info, hna, xmlClose, gotoNextSibling, nlIf]
          have hsteps := xsteps_trans hNode (XSteps.step hiterA hF2)
          cases ch with
          | nil =>
            simp only [xmlTrace, xmlPre, xmlPreNl] at hsteps ⊢
            simpa [hna, nlIf_idem, List.append_assoc] using hsteps
          | cons x xs =>
            simp only [xmlTrace, xmlPre, xmlPreNl] at hsteps ⊢
            simpa [hna, nlIf_idem, List.append_assoc] using hsteps
      | false =>
        have htags : (if (NTree.mk info ch).named then (NTree.mk info ch).info.kind :: tags
            else tags) = tags := by
          simp [NTree.named, NTree.info, hna]
        rw [htags] at hNode
        cases rest with
        | nil =>
          have hiterA : xmlIter src ⟨⟨NTree.mk info ch, ⟨p, left, []⟩ :: st⟩, i, true,
              xmlPreNl src (NTree.mk info ch) i nl, tags⟩ =
              some (xmlClose info, some ⟨⟨p, st⟩, i - 1, true,
                nlIf info.named (xmlPreNl src (NTree.mk info ch) i nl), tags⟩) := by
            unfold xmlIter
            simp [NTree.named, NTree.info, hna, xmlClose, gotoNextSibling, gotoParent, nlIf]
          have hsteps := xsteps_trans hNode (XSteps.step hiterA (XSteps.refl _))
          cases ch with
          | nil =>
            simp only [xmlTrace, xmlPre, xmlPreNl] at hsteps ⊢
            simpa [hna, nlIf_idem] using hsteps
          | cons x xs =>
            simp only [xmlTrace, xmlPre, xmlPreNl] at hsteps ⊢
            simpa [hna, nlIf_idem] using hsteps
        | cons r rs =>
          have hrs : sizeOf r + sizeOf rs ≤ N := by
            have h1 := one_le_sizeOf_ntree (NTree.mk info ch)
            simp only [List.cons.sizeOf_spec] at hsize
            omega
          have hF2 := ihF r rs hrs p (NTree.mk info ch :: left) st i
            (nlIf info.named (xmlPreNl src (NTree.mk info ch) i nl)) tags hokrest
          have hiterA : xmlIter src ⟨⟨NTree.mk info ch, ⟨p, left, r :: rs⟩ :: st⟩, i, true,
              xmlPreNl src (NTree.mk info ch) i nl, tags⟩ =
              some (xmlClose info, some ⟨⟨r, ⟨p, NTree.mk info ch :: left, rs⟩ :: st⟩, i,
                false, nlIf info.named (xmlPreNl src (NTree.mk info ch) i nl), tags⟩) := by
            unfold xmlIter
            simp [NTree.named, NTree.info, hna, xmlClose, gotoNextSibling, nlIf]
          have hsteps := xsteps_trans hNode (XSteps.step hiterA hF2)
          cases ch with
          | nil =>
            simp only [xmlTrace, xmlPre, xmlPreNl] at hsteps ⊢
            simpa [hna, nlIf_idem, List.append_assoc] using hsteps
          | cons x xs =>
            simp only [xmlTrace, xmlPre, xmlPreNl] at hsteps ⊢
            simpa [hna, nlIf_idem, List.append_assoc] using hsteps

/-- The debug_xml loop's initial state (parse.rs:432-435): cursor at the root,
indent 0, descend phase, no newline pending, empty tag stack. -/
def xmlInit (t : NTree) : XState :=
  ⟨⟨t, []⟩, 0, false, false, []⟩

/-- C7 (amended): when every leaf's byte range lies inside the buffer and
holds valid UTF-8, the debug_xml loop terminates without panicking and writes
exactly `xmlTrace`: each named node contributes a matching `<kind ...>` /
`</kind>` pair (with the field name as a `type` attribute when present) around
its body; an anonymous node contributes no tags; and the body of every leaf —
named or anonymous — is its source text escaped for the markup's reserved
characters.  Anonymous leaves are therefore not omitted entirely: their
escaped source text is emitted. -/
theorem tag_markup_render (t : NTree) (src : List Nat) (h : leavesOk src [t] = true) :
    XTerm src (xmlInit t) ((xmlTrace src [t] 0 false).1) := by
  have hNode := (xml_sim src (sizeOf t)).1 t le_rfl [] 0 false [] h
  obtain ⟨info, ch⟩ := t
  cases hna : info.named with
  | true =>
    have htags : (if (NTree.mk info ch).named then (NTree.mk info ch).info.kind :: ([] : List (List Char))
        else []) = [info.kind] := by
      simp [NTree.named, NTree.info, hna]
    rw [htags] at hNode
    have hiterF : xmlIter src ⟨⟨NTree.mk info ch, []⟩, 0, true,
        xmlPreNl src (NTree.mk info ch) 0 false, [info.kind]⟩ =
        some (xmlClose info, none) := by
      unfold xmlIter
      simp [NTree.named, NTree.info, hna, xmlClose, gotoNextSibling, gotoParent]
    have hterm := xsteps_toTerm hNode (XTerm.done hiterF)
    cases ch with
    | nil =>
      simp only [xmlTrace, xmlPre, xmlPreNl, xmlInit] at hterm ⊢
      simpa using hterm
    | cons x xs =>
      simp only [xmlTrace, xmlPre, xmlPreNl, xmlInit] at hterm ⊢
      simpa [List.append_assoc] using hterm
  | false =>
    have htags : (if (NTree.mk info ch).named then (NTree.mk info ch).info.kind :: ([] : List (List Char))
        else []) = [] := by
      simp [NTree.named, NTree.info, hna]
    rw [htags] at hNode
    have hiterF : xmlIter src ⟨⟨NTree.mk info ch, []⟩, 0, true,
        xmlPreNl src (NTree.mk info ch) 0 false, []⟩ =
        some (xmlClose info, none) := by
      unfold xmlIter
      simp [NTree.named, NTree.info, hna, xmlClose, gotoNextSibling, gotoParent]
    have hterm := xsteps_toTerm hNode (XTerm.done hiterF)
    cases ch with
    | nil =>
      simp only [xmlTrace, xmlPre, xmlPreNl, xmlInit] at hterm ⊢
      simpa using hterm
    | cons x xs =>
      simp only [xmlTrace, xmlPre, xmlPreNl, xmlInit] at hterm ⊢
      simpa [List.append_assoc] using hterm

/-- An anonymous punctuation leaf (kind `;`, unnamed), spanning byte 0..1. -/
def anonLeafNode : NTree :=
  .mk ⟨(";").data, false, false, false, false, 0, 1, ⟨0, 0⟩, ⟨0, 1⟩, none⟩ []

/-- A named node `a` whose single child is the anonymous `;` leaf. -/
def xmlDemoTree : NTree :=
  .mk ⟨("a").data, true, false, false, false, 0, 1, ⟨0, 0⟩, ⟨0, 1⟩, none⟩ [anonLeafNode]

/-- C7 counterexample: the claim says anonymous nodes are omitted entirely,
contributing no output of any kind.  On the buffer `;` and the tree
`(a (";"))`, the debug_xml loop's complete output is `<a>;</a>` plus a line
feed: the anonymous leaf contributes the `;` byte (the only `;` in the
output — neither kind tag `a` nor the markup punctuation contains one), so
the output differs from the `<a></a>` rendering the claim would require. -/
theorem xml_anonymous_leaf_contributes_output :
    anonLeafNode.named = false ∧
      XTerm [59] (xmlInit xmlDemoTree) (utf8Bytes ("<a>;</a>\n").data) ∧
      List.contains (utf8Bytes ("<a>;</a>\n").data) 59 = true ∧
      utf8Bytes ("<a>;</a>\n").data ≠ utf8Bytes ("<a></a>\n").data := by
  have hrun : XTerm [59] (xmlInit xmlDemoTree)
      (utf8Bytes ("<a>").data ++ ([59] ++ ([] ++ utf8Bytes ("</a>\n").data))) :=
    XTerm.step rfl (XTerm.step rfl (XTerm.step rfl (XTerm.done rfl)))
  have heq : utf8Bytes ("<a>").data ++ ([59] ++ ([] ++ utf8Bytes ("</a>\n").data)) =
      utf8Bytes ("<a>;</a>\n").data := by decide
  exact ⟨by decide, heq ▸ hrun, by decide, by decide⟩

/-- C7 witness: the amended rendering theorem applied to the concrete tree
`(a (";"))` over the buffer `;`. -/
theorem tag_markup_render_witness :
    leavesOk [59] [xmlDemoTree] = true ∧
      XTerm [59] (xmlInit xmlDemoTree) ((xmlTrace [59] [xmlDemoTree] 0 false).1) := by
  have hok : leavesOk [59] [xmlDemoTree] = true := by
    simp only [xmlDemoTree, anonLeafNode, leavesOk]
    decide
  exact ⟨hok, tag_markup_render xmlDemoTree [59] hok⟩

/-- Decimal digit characters of a number (`format!` of an unsigned integer). -/
def natChars (n : Nat) : List Char :=
  Nat.toDigits 10 n

/-- `{:<2}` formatting: left-align, pad with spaces to width 2. -/
def padRight2 (l : List Char) : List Char :=
  if l.length < 2 then l ++ List.replicate (2 - l.length) ' ' else l

/-- The opening escape sequence `ansi_term` emits for an RGB colour. -/
def ansiPrefix (r g b : Nat) : List Char :=
  ("\x1b[38;2;").data ++ natChars r ++ (";").data ++ natChars g ++ (";").data ++
    natChars b ++ ("m").data

/-- `Colour::RGB(r, g, b).paint(text).to_string()` as bytes. -/
def paintBytes (r g b : Nat) (inner : List Nat) : List Nat :=
  utf8Bytes (ansiPrefix r g b) ++ inner ++ utf8Bytes (("\x1b[0m").data)

/-- `str::replace` with a one-character pattern. -/
def replaceChar (c : Char) (repl : List Char) (l : List Char) : List Char :=
  l.flatMap fun x => if x = c then repl else [x]

/-- The escape chain of parse.rs:246-254 applied to an anonymous node's kind:
backslash, tab, newline, carriage return and double quote, in that order. -/
def escapeKind (l : List Char) : List Char :=
  replaceChar '\x22' ['\\', '\x22']
    (replaceChar '\r' ['\\', 'r']
      (replaceChar '\n' ['\\', 'n']
        (replaceChar '\t' ['\\', 't']
          (replaceChar '\\' ['\\', '\\'] l))))

/-- `Node::range()`: start/end byte plus start/end point, the quadruple the
source compares with `!=`. -/
def nodeRange (n : NTree) : Nat × Nat × Point × Point :=
  (n.info.startByte, n.info.endByte, n.info.startPos, n.info.endPos)

/-- The state of the colorized line-annotated strategy
(`NodeTreeWithRangesLine`, parse.rs:182-187). -/
structure NodeTreeWithRangesLine where
  dquote_unnamed : Bool
  source_code : Option (List Nat)
  new_line_started : Bool
  last_line_no : Nat

/-- The condition of parse.rs:265-270 under which the strategy appends the
inline source annotation to a `Node` event: the node is named; it is childless
or the `new_line_started` flag is set (true for every node except the first
one emitted, since each later node is preceded by a line feed); its first
child (if any) spans a different range or is anonymous; and it starts and ends
on the same row. -/
def annotationCond (st : NodeTreeWithRangesLine) (c : StepContext) : Bool :=
  c.node.named &&
    (c.node.children.length == 0 || st.new_line_started) &&
    (match c.node.children with
     | [] => true
     | ch0 :: _ => decide (nodeRange ch0 ≠ nodeRange c.node) || !ch0.named) &&
    (c.node.info.startPos.row == c.node.info.endPos.row)

/-- `NodeTreeWithRangesLine::render_step` (parse.rs:216-289), producing the
output fragment bytes and the updated strategy state.  `none` models the
panics of the source-snippet branch: an out-of-range slice of the buffer or
`from_utf8(..).unwrap()` on invalid bytes. -/
def render_step_line (st : NodeTreeWithRangesLine) (step : Step) :
    Option (List Nat × NodeTreeWithRangesLine) :=
  match step with
  | .ident c =>
    let startP := c.node.info.startPos
    let endP := c.node.info.endPos
    let num_range : List Char :=
      natChars startP.row ++ (":").data ++ padRight2 (natChars startP.column) ++
        (" - ").data ++ natChars endP.row ++ (":").data ++
        padRight2 (natChars endP.column) ++ (" ").data
    let indent := c.indentLevel.toNat * 2 + 14
    let indent2 := indent - num_range.length
    let firstPart :=
      if st.last_line_no ≠ startP.row then paintBytes 122 209 143 (utf8Bytes num_range)
      else utf8Bytes num_range
    some (firstPart ++ utf8Bytes (List.replicate indent2 ' '),
      { st with last_line_no := startP.row })
  | .node c =>
    let fieldPart := match c.node.info.fieldName with
      | some f => paintBytes 177 220 253 (utf8Bytes (f ++ (": ").data))
      | none => []
    let kindPart :=
      if st.dquote_unnamed && !c.node.named then
        paintBytes 219 219 173 (utf8Bytes ('\x22' :: escapeKind c.node.info.kind ++ ['\x22']))
      else
        paintBytes 117 187 253 (utf8Bytes c.node.info.kind)
    match st.source_code with
    | none => some (fieldPart ++ kindPart, { st with new_line_started := false })
    | some src =>
      if annotationCond st c then
        if c.node.info.startByte ≤ c.node.info.endByte ∧ c.node.info.endByte ≤ src.length then
          if isValidUtf8 (sliceRange src c.node.info.startByte c.node.info.endByte) then
            some (fieldPart ++ kindPart ++
                (utf8Bytes ((" `").data) ++
                  paintBytes 118 118 118
                    (sliceRange src c.node.info.startByte c.node.info.endByte) ++
                  utf8Bytes (("`").data)),
              { st with new_line_started := false })
          else none
        else none
      else some (fieldPart ++ kindPart, { st with new_line_started := false })
  | .afterChildren _ => some ([], st)
  | .lf _ => some ([10], { st with new_line_started := true })

/-- C8 (amended): on a `Node` event with source text available, the emitted
fragment is exactly the fragment the strategy would emit without source text,
followed — precisely when `annotationCond` holds (named, childless or not the
first emitted node, first child absent/anonymous/differently-ranged, start and
end on the same row) — by the inline annotation containing exactly the source
bytes spanned by the node's start and end byte offsets; the
`new_line_started` flag is cleared either way. -/
theorem line_render_annotation (st : NodeTreeWithRangesLine) (c : StepContext)
    (src out : List Nat) (st2 : NodeTreeWithRangesLine)
    (hsrc : st.source_code = some src)
    (h : render_step_line st (Step.node c) = some (out, st2)) :
    ∃ base stb,
      render_step_line { st with source_code := none } (Step.node c) = some (base, stb) ∧
      out = base ++
        (if annotationCond st c then
          utf8Bytes ((" `").data) ++
            paintBytes 118 118 118
              (sliceRange src c.node.info.startByte c.node.info.endByte) ++
            utf8Bytes (("`").data)
        else []) ∧
      st2 = { st with new_line_started := false } ∧
      stb = { st with source_code := none, new_line_started := false } := by
  simp only [render_step_line, hsrc] at h
  by_cases hq : annotationCond st c = true
  · rw [if_pos hq] at h
    refine ⟨_, _, rfl, ?_⟩
    rw [if_pos hq]
    split at h
    · split at h
      · simp only [Option.some.injEq, Prod.mk.injEq] at h
        exact ⟨h.1.symm, by rw [hsrc]; exact h.2.symm, rfl⟩
      · exact Option.noConfusion h
    · exact Option.noConfusion h
  · rw [if_neg hq] at h
    simp only [Option.some.injEq, Prod.mk.injEq] at h
    refine ⟨_, _, rfl, ?_⟩
    rw [if_neg hq]
    exact ⟨by rw [← h.1]; simp, by rw [hsrc]; exact h.2.symm, rfl⟩

/-- An anonymous leaf spanning bytes 0..0 (a range different from its
parent's). -/
def c8AnonChild : NTree :=
  .mk ⟨(";").data, false, false, false, false, 0, 0, ⟨0, 0⟩, ⟨0, 0⟩, none⟩ []

/-- A named single-row node `x` over bytes 0..1 whose only child is
anonymous: per claim C8 it satisfies every stated annotation condition. -/
def c8Node : NTree :=
  .mk ⟨("x").data, true, false, false, false, 0, 1, ⟨0, 0⟩, ⟨0, 1⟩, none⟩ [c8AnonChild]

/-- The strategy state before the first emitted node: source text available,
`new_line_started` still false. -/
def c8State : NodeTreeWithRangesLine :=
  ⟨true, some [59], false, 1000⟩

/-- The same state after a line feed (`new_line_started` set), as holds for
every emitted node other than the first. -/
def c8StateNL : NodeTreeWithRangesLine :=
  ⟨true, some [59], true, 1000⟩

def c8Ctx : StepContext :=
  ⟨c8Node, none, 0⟩

/-- C8 counterexample: the claim says every emitted node that is named, has no
named children, starts and ends on the same line, and has source text
available gets the inline source annotation.  `c8Node` satisfies all four
conditions, yet on the first emitted node (`new_line_started` still false,
children present) the strategy appends no annotation: the emitted fragment
contains no backtick byte 96, though the annotation format `` `text` `` always
carries two of them and nothing else in the fragment does. -/
theorem line_render_first_node_no_annotation :
    c8Node.named = true ∧
      (c8Node.children.all fun ch => !ch.named) = true ∧
      c8Node.info.startPos.row = c8Node.info.endPos.row ∧
      c8State.source_code = some [59] ∧
      (render_step_line c8State (Step.node c8Ctx)).map (fun p => p.1.contains 96) =
        some false := by
  refine ⟨by decide, by decide, by decide, rfl, ?_⟩
  decide

/-- C8 witness: the amended theorem applied at a concrete post-line-feed state
where the annotation is appended. -/
theorem line_render_annotation_witness :
    ∃ out st2, render_step_line c8StateNL (Step.node c8Ctx) = some (out, st2) ∧
      ∃ base stb,
        render_step_line { c8StateNL with source_code := none } (Step.node c8Ctx) =
          some (base, stb) ∧
        out = base ++
          (if annotationCond c8StateNL c8Ctx then
            utf8Bytes ((" `").data) ++
              paintBytes 118 118 118
                (sliceRange [59] c8Ctx.node.info.startByte c8Ctx.node.info.endByte) ++
              utf8Bytes (("`").data)
          else []) ∧
        st2 = { c8StateNL with new_line_started := false } ∧
        stb = { c8StateNL with source_code := none, new_line_started := false } :=
  ⟨_, _, rfl, line_render_annotation c8StateNL c8Ctx [59] _ _ rfl rfl⟩
